import Mathlib

/-!
Verification of the static-site export pipeline of the
`starter-kit-astro-apollo` repository, against its natural-language
specification.  The definitions below are a shallow embedding of the
JavaScript in `frontend/scripts/generateSitemap.js` and
`frontend/scripts/generate-static-site.js`; theorems settle the claims
about URL normalization, the output-file mapping, retry behaviour, the
worker pool, locale prefixing, pagination, and the orchestrator's
empty-sitemap abort.
-/

namespace StaticExport

/-! ### JavaScript string primitives

All string manipulation is done on `List Char` (a `String.data` view).
The helpers mirror the JavaScript string methods used by the scripts.
-/

/-- `s.startsWith(pre)` on character lists. -/
def jsStartsWith (s pre : List Char) : Bool := pre.isPrefixOf s

/-- `s.endsWith(suf)` on character lists. -/
def jsEndsWith (s suf : List Char) : Bool := suf.isSuffixOf s

/-- `s.includes(sub)` for a one-character `sub` (the scripts only use `"."`). -/
def jsIncludesChar (s : List Char) (c : Char) : Bool := s.contains c

/-- The characters before the first `'?'` or `'#'` — used both by URL
parsing (path ends at a query or fragment) and by the fallback
`u.split("?")[0].split("#")[0]` in `normalizeUrl`. -/
def takeUntilQueryOrFragment (s : List Char) : List Char :=
  s.takeWhile (fun c => !(c == '?' || c == '#'))

/-- `[a-z0-9]` with the `i` flag: an ASCII letter or digit. -/
def isAlnumChar (c : Char) : Bool :=
  ('a' ≤ c && c ≤ 'z') || ('A' ≤ c && c ≤ 'Z') || ('0' ≤ c && c ≤ '9')

/-- The regex test `/\.[a-z0-9]+$/i.test(p)`: `p` ends with a dot followed
by one or more ASCII alphanumerics.  Checked from the right: a nonempty
maximal alphanumeric run at the end, preceded by `'.'`. -/
def isFileRe (s : List Char) : Bool :=
  let r := s.reverse
  let t := r.takeWhile isAlnumChar
  !t.isEmpty && ((r.drop t.length).head? == some '.')

/-- `notFileLike(p)` from `generateSitemap.js` (line 61): `!/\.[a-z0-9]+$/i.test(p)`. -/
def notFileLike (s : List Char) : Bool := !isFileRe s

/-! ### Model of `new URL(u, "http://dummy").pathname`

`normalizeUrl` parses its input against the base `"http://dummy"` and
takes the resulting `pathname`.  The model below covers the inputs the
scripts feed it (site-relative references) plus protocol-relative
(`//host/...`) references, following the WHATWG URL standard:

* an input starting with `"//"` is protocol-relative: any run of leading
  slashes is skipped (special-authority-ignore-slashes state), the host
  is the run of characters before the next `'/'`, `'?'` or `'#'`, and the
  pathname is what follows from the `'/'` (or `"/"` when the host is
  followed directly by a query, a fragment, or the end); an empty host is
  a parse failure (`new URL` throws), modelled as `none`;
* any other input is a relative reference resolved against the base path
  `"/"`: the path is the input up to the first `'?'` or `'#'`, prefixed
  with `"/"` when it does not already start with one.

Not modelled (irrelevant to the inputs used in the theorems below):
scheme-absolute inputs, percent-encoding, `'\'` as a path separator,
dot-segment removal, and tab/newline stripping. -/
def urlPathname (u : List Char) : Option (List Char) :=
  if jsStartsWith u ['/', '/'] then
    let rest' := (u.drop 2).dropWhile (fun c => c == '/')
    let auth := rest'.takeWhile (fun c => !(c == '/' || c == '?' || c == '#'))
    if auth.isEmpty then
      none
    else
      let after := rest'.drop auth.length
      if jsStartsWith after ['/'] then some (takeUntilQueryOrFragment after)
      else some ['/']
  else
    let raw := takeUntilQueryOrFragment u
    if jsStartsWith raw ['/'] then some raw
    else some ('/' :: raw)

/-! ### `normalizeUrl` (generateSitemap.js lines 42–63) -/

/-- The path `normalizeUrl` works on before the trailing-slash step: the
parsed pathname (or, when parsing fails, the input stripped of query and
fragment), with a leading `'/'` ensured.  This is the value of the local
`p` right before the trailing-slash `if` in both branches of the source. -/
def preSlashPath (u : List Char) : List Char :=
  match urlPathname u with
  | some path => if jsStartsWith path ['/'] then path else '/' :: path
  | none =>
    let p0 := takeUntilQueryOrFragment u
    if jsStartsWith p0 ['/'] then p0 else '/' :: p0

/-- Whether `normalizeUrl` took the `try` (URL-parse) branch. -/
def parseOk (u : List Char) : Bool := (urlPathname u).isSome

/-- `normalizeUrl(u)` from `generateSitemap.js` lines 42–63.  The `try`
branch takes `new URL(u, "http://dummy").pathname`, ensures a leading
slash, and appends a trailing slash when
`!p.endsWith(".html") && !p.endsWith(".htm") && !p.includes(".")` and `p`
does not already end with `'/'`.  The `catch` branch strips at `'?'`/`'#'`,
ensures a leading slash, and appends a trailing slash when
`notFileLike(p) && !p.endsWith("/")` (the `!p.endswith` term in the source
reads a nonexistent property, hence is `!undefined`, i.e. always true). -/
def normalizeUrlL (u : List Char) : List Char :=
  match urlPathname u with
  | some path =>
    let p := if jsStartsWith path ['/'] then path else '/' :: path
    if !(jsEndsWith p ".html".data) && !(jsEndsWith p ".htm".data)
        && !(jsIncludesChar p '.') then
      if !(jsEndsWith p ['/']) then p ++ ['/'] else p
    else p
  | none =>
    let p0 := takeUntilQueryOrFragment u
    let p := if jsStartsWith p0 ['/'] then p0 else '/' :: p0
    if notFileLike p && !(jsEndsWith p ['/']) then p ++ ['/'] else p

/-- `normalizeUrl` on `String`s. -/
def normalizeUrl (u : String) : String := ⟨normalizeUrlL u.data⟩

example : normalizeUrl "/a/b?x=1#y" = "/a/b/" := by decide
example : normalizeUrl "/about" = "/about/" := by decide
example : normalizeUrl "/about/" = "/about/" := by decide
example : normalizeUrl "/style.css" = "/style.css" := by decide
example : normalizeUrl "" = "/" := by decide
example : normalizeUrl "/v1.2/docs" = "/v1.2/docs" := by decide
example : normalizeUrl "//a//b" = "//b/" := by decide
example : normalizeUrl "//b/" = "/" := by decide
example : normalizeUrl "//" = "//" := by decide

/-! ### `writeHtmlForPath` (generate-static-site.js lines 121–137)

The function maps a URL path to a file under the output root and writes
the HTML there:

* file-like paths (`/\.[a-z0-9]+$/i`): `path.join(rootDir, urlPath.replace(/^\//, ""))`;
* `"/"`: `path.join(rootDir, "index.html")`;
* otherwise: `path.join(rootDir, urlPath.replace(/^\//, ""), "index.html")`.

`rootDir` is abstracted away: the model returns the output path's
segments relative to the output root, after Node's `path.join`
normalization (empty segments dropped, `"."` dropped, `".."` pops the
preceding segment and is kept when there is nothing left to pop).  Two
calls with the same root collide on the same file exactly when these
segment lists agree, for paths that do not escape the root via `".."`. -/

/-- `s.split("/")`. -/
def splitSlash : List Char → List (List Char)
  | [] => [[]]
  | c :: t =>
    let r := splitSlash t
    if c == '/' then [] :: r
    else
      match r with
      | s :: rs => (c :: s) :: rs
      | [] => [[c]]

/-- The nonempty `'/'`-separated segments of a path. -/
def rawSegs (s : List Char) : List (List Char) :=
  (splitSlash s).filter (fun seg => !seg.isEmpty)

/-- One step of Node path normalization over segments. -/
def normSegsStep (acc : List (List Char)) (seg : List Char) : List (List Char) :=
  if seg = ['.'] then acc
  else if seg = ['.', '.'] then
    match acc.getLast? with
    | some last => if last = ['.', '.'] then acc ++ [seg] else acc.dropLast
    | none => acc ++ [seg]
  else acc ++ [seg]

/-- Node `path.join` segment normalization: drop `"."`, resolve `".."`. -/
def normSegs (segs : List (List Char)) : List (List Char) :=
  segs.foldl normSegsStep []

/-- `urlPath.replace(/^\//, "")`: drop one leading slash if present. -/
def stripOneLeadingSlash (s : List Char) : List Char :=
  match s with
  | '/' :: t => t
  | _ => s

/-- The output file produced by `writeHtmlForPath rootDir urlPath html`,
as a normalized segment list relative to `rootDir`. -/
def outputFileSegs (urlPath : List Char) : List (List Char) :=
  if isFileRe urlPath then
    normSegs (rawSegs (stripOneLeadingSlash urlPath))
  else if urlPath = ['/'] then
    ["index.html".data]
  else
    normSegs (rawSegs (stripOneLeadingSlash urlPath) ++ ["index.html".data])

/-- `outputFileSegs` on `String`s. -/
def outputFile (urlPath : String) : List (List Char) := outputFileSegs urlPath.data

example : outputFile "/" = ["index.html".data] := by decide
example : outputFile "/about/" = ["about".data, "index.html".data] := by decide
example : outputFile "/foo.json" = ["foo.json".data] := by decide
example : outputFile "/index.html" = ["index.html".data] := by decide

/-! ### `fetchWithRetry` (generate-static-site.js lines 56–81)

The fetch itself is abstracted as a sequence of outcomes, one per
attempt: either a thrown error (network failure / abort) or a response
with its `ok` flag and `status`.  The loop runs `attempt` from `0` to
`retries`; an `ok` response returns immediately; otherwise `lastError`
becomes either the caught error or the constructed
`HTTP <status>` error — note that the `throw` for a non-429 4xx at line
66 sits inside the `try`, so it is caught by the `catch` at line 70 and
the loop continues like any other failure.  Between attempts
(`attempt < retries`) it sleeps `min(1000 * 2^attempt, 5000)` ms.  The
model additionally returns the number of attempts made and the list of
inter-attempt delays. -/

/-- A response, as far as `fetchWithRetry` inspects it. -/
structure JsResponse where
  ok : Bool
  status : Nat
  deriving DecidableEq, Repr

/-- The outcome of one `fetchWithTimeout` call. -/
inductive FetchOutcome where
  | thrown (msg : String)
  | resp (r : JsResponse)
  deriving DecidableEq, Repr

/-- The error `fetchWithRetry` records for a failed attempt. -/
inductive RetryError where
  | caught (msg : String)
  | http (status : Nat)
  deriving DecidableEq, Repr

/-- The error a non-`ok` outcome turns into (`lastError` after that attempt). -/
def errorOfOutcome : FetchOutcome → RetryError
  | .thrown m => .caught m
  | .resp r => .http r.status

/-- The backoff before attempt `attempt + 1`: `Math.min(1000 * 2^attempt, 5000)`. -/
def backoffDelay (attempt : Nat) : Nat := min (1000 * 2 ^ attempt) 5000

/-- The loop of `fetchWithRetry`, from attempt number `attempt` with
`retries - attempt` further attempts allowed (`fuel` counts the attempts
still to make, so it starts at `retries + 1`).  Returns the result, the
total number of attempts made so far, and the delays slept. -/
def fetchWithRetryGo (outcomes : Nat → FetchOutcome) (retries : Nat) :
    Nat → Nat → Except RetryError JsResponse × Nat × List Nat
  | 0, _ => (.error (.caught "unreachable"), 0, [])
  | fuel + 1, attempt =>
    match outcomes attempt with
    | .resp r =>
      if r.ok then (.ok r, attempt + 1, (List.range attempt).map backoffDelay)
      else
        if fuel = 0 then (.error (.http r.status), attempt + 1, (List.range attempt).map backoffDelay)
        else fetchWithRetryGo outcomes retries fuel (attempt + 1)
    | .thrown m =>
      if fuel = 0 then (.error (.caught m), attempt + 1, (List.range attempt).map backoffDelay)
      else fetchWithRetryGo outcomes retries fuel (attempt + 1)

/-- `fetchWithRetry(url, options, timeoutMs, retries)` with the fetch
outcomes supplied by `outcomes`: result, attempts made, delays slept.
(When attempt `retries` still fails the accumulated `lastError` is
thrown; `fuel = 0` in `fetchWithRetryGo` marks that last attempt, and
the delay list records one backoff per attempt except the final one.) -/
def fetchWithRetry (outcomes : Nat → FetchOutcome) (retries : Nat) :
    Except RetryError JsResponse × Nat × List Nat :=
  fetchWithRetryGo outcomes retries (retries + 1) 0

example :
    fetchWithRetry (fun _ => .resp ⟨true, 200⟩) 3
      = (.ok ⟨true, 200⟩, 1, []) := rfl
example :
    fetchWithRetry (fun n => if n < 2 then .thrown "ECONNREFUSED" else .resp ⟨true, 200⟩) 2
      = (.ok ⟨true, 200⟩, 3, [1000, 2000]) := rfl
example :
    fetchWithRetry (fun _ => .resp ⟨false, 404⟩) 2
      = (.error (.http 404), 3, [1000, 2000]) := rfl
example :
    fetchWithRetry (fun _ => .thrown "timeout") 3
      = (.error (.caught "timeout"), 4, [1000, 2000, 4000]) := rfl

/-! ### `applyLocalePrefix` (generate-static-site.js lines 274–290) -/

/-- The body of the `urls.map` callback in `applyLocalePrefix`. -/
def applyLocalePrefixOne (localePrefix url : String) : String :=
  if jsStartsWith url.data (localePrefix ++ "/").data || url = localePrefix then url
  else if url = "/" then localePrefix ++ "/"
  else localePrefix ++ url

/-- `applyLocalePrefix(urls, localePrefix)`: a falsy (empty) prefix
returns `urls` unchanged; otherwise each URL is prefixed unless it
already equals the prefix or starts with `prefix + "/"`. -/
def applyLocalePrefix (urls : List String) (localePrefix : String) : List String :=
  if localePrefix = "" then urls
  else urls.map (applyLocalePrefixOne localePrefix)

example : applyLocalePrefix ["/fr/about/", "/contact/", "/"] "/fr"
    = ["/fr/about/", "/fr/contact/", "/fr/"] := by decide
example : applyLocalePrefix ["/about/"] "" = ["/about/"] := by decide

/-! ### `fetchAllPieces` (generateSitemap.js lines 139–155)

The HTTP layer is abstracted as a map from page number to the page
response: either a non-2xx response (`notOk`) or an `ok` response whose
parsed body has `results` equal to a list of items, each item carrying
its `_url` field (`none` when absent; the code also skips a falsy empty
string).  The JavaScript `for (;;)` loop would not terminate if every
page were `ok` with `≥ perPage` results, so the model takes `fuel`, an
upper bound on the number of iterations; the theorems supply enough fuel
for runs that reach a short page or a `notOk` response. -/

/-- One page of the collection endpoint, as far as the loop inspects it. -/
inductive PageResp where
  | notOk
  | ok (items : List (Option String))
  deriving Repr

/-- `perPage` (generateSitemap.js line 142). -/
def perPage : Nat := 100

/-- The URLs one `ok` page contributes: `normalizeUrl(piece._url)` for
every item whose `_url` is truthy. -/
def pageUrls (items : List (Option String)) : List String :=
  items.filterMap fun u? =>
    match u? with
    | some s => if s = "" then none else some (normalizeUrl s)
    | none => none

/-- The pagination loop of `fetchAllPieces`, starting at page number
`page`.  Returns the list of page numbers requested and the collected
URLs, in order. -/
def fetchAllPiecesGo (pages : Nat → PageResp) : Nat → Nat → List Nat × List String
  | 0, _ => ([], [])
  | fuel + 1, page =>
    match pages page with
    | .notOk => ([page], [])
    | .ok items =>
      if items.length < perPage then ([page], pageUrls items)
      else
        let rest := fetchAllPiecesGo pages fuel (page + 1)
        (page :: rest.1, pageUrls items ++ rest.2)

/-- `fetchAllPieces(aposHost, headers, pieceType)`: pagination starts at
`page = 1`. -/
def fetchAllPieces (pages : Nat → PageResp) (fuel : Nat) : List Nat × List String :=
  fetchAllPiecesGo pages fuel 1

example :
    fetchAllPieces (fun p => if p = 1 then .ok [some "/a", none, some "/b"] else .notOk) 5
      = ([1], ["/a/", "/b/"]) := by decide

/-! ### `mapLimit` (generate-static-site.js lines 228–247)

`mapLimit` runs `limit` asynchronous runners over a shared queue; each
runner repeatedly shifts one item and awaits `worker(item)`, then
records a success or a failure (with the item and the error message).
The model is a small-step interpreter over an explicit state,
parameterized by a schedule of actions, so the counting theorems hold
for every interleaving the event loop could produce:

* `take` — an idle runner checks `queue.length` and shifts the head
  (these happen in one synchronous slice, so the pair is one atomic
  step); enabled only while fewer than `limit` items are in flight;
* `complete i` — the runner holding in-flight item `i` finishes its
  `await worker(item)` and records the result (`outcome item = none`
  for success, `some msg` for a failure with message `msg`).

`done` records completed items; the source keeps no such list, it is
the model's trace of which items were processed. -/

/-- One scheduler action. -/
inductive MLAct where
  | take
  | complete (i : Nat)
  deriving Repr

/-- The interpreter state: the shared queue, the in-flight items, and
the `results` record `{ success, failed, errors }`, plus the `done`
trace. -/
structure MLState (α : Type) where
  queue : List α
  inflight : List α
  success : Nat
  failed : Nat
  errors : List (α × String)
  done : List α
  deriving Repr

/-- One step of the `mapLimit` worker pool. -/
def mlStep {α : Type} (outcome : α → Option String) (limit : Nat)
    (s : MLState α) (a : MLAct) : MLState α :=
  match a with
  | .take =>
    if s.inflight.length < limit then
      match s.queue with
      | [] => s
      | it :: rest => { s with queue := rest, inflight := s.inflight ++ [it] }
    else s
  | .complete i =>
    match s.inflight.get? i with
    | none => s
    | some it =>
      match outcome it with
      | none =>
        { s with inflight := s.inflight.eraseIdx i
                 success := s.success + 1
                 done := s.done ++ [it] }
      | some msg =>
        { s with inflight := s.inflight.eraseIdx i
                 failed := s.failed + 1
                 errors := s.errors ++ [(it, msg)]
                 done := s.done ++ [it] }

/-- The initial state of `mapLimit(items, limit, worker)`. -/
def mlInit {α : Type} (items : List α) : MLState α :=
  ⟨items, [], 0, 0, [], []⟩

/-- Run the pool under a schedule. -/
def mlRun {α : Type} (outcome : α → Option String) (limit : Nat)
    (items : List α) (sched : List MLAct) : MLState α :=
  sched.foldl (mlStep outcome limit) (mlInit items)

/-- The pool has terminated: queue drained and no runner mid-await. -/
def mlFinished {α : Type} (s : MLState α) : Prop :=
  s.queue = [] ∧ s.inflight = []

/-- A schedule that drains `n` items with a single runner:
`take, complete 0` repeated. -/
def mlSeqSched : Nat → List MLAct
  | 0 => []
  | n + 1 => .take :: .complete 0 :: mlSeqSched n

example :
    (mlRun (fun n => if n = 2 then some "HTTP 500" else none) 2 [1, 2, 3]
      (mlSeqSched 3)).success = 2 := by decide
example :
    (mlRun (fun n => if n = 2 then some "HTTP 500" else none) 2 [1, 2, 3]
      (mlSeqSched 3)).errors = [(2, "HTTP 500")] := by decide

/-! ### The orchestrator after the sitemap is built
(generate-static-site.js lines 408–497)

`main`'s effects from the point where `allUrls` is known are recorded as
an event trace.  Faithful to the statement order of the source: an empty
`allUrls` throws `Error("Empty sitemap")` (line 410), which the `catch`
at line 493 turns into `shutdown()` and `process.exit(1)` — before
`cleanDir(outputDir)` (line 416), the asset copy (lines 419–430), the
crawl (lines 436–449), and everything after.  Elided as irrelevant to
the claims below: console logging, the per-page write events inside the
crawl callback (the crawl-fetch events are listed in queue order), the
uploads/404 sub-steps, and the failed-pages exit code. -/

/-- An orchestrator effect. -/
inductive MainEvent where
  | fatalThrow (msg : String)
  | shutdown
  | exitProcess (code : Nat)
  | cleanOutputDir
  | copyAssets
  | crawlFetch (url : String)
  | handleUploads
  | ensure404
  deriving DecidableEq, Repr

/-- The event trace of `main` from line 408 on, given the final
`allUrls` list. -/
def mainAfterSitemap (allUrls : List String) : List MainEvent :=
  if allUrls.length = 0 then
    [.fatalThrow "Empty sitemap", .shutdown, .exitProcess 1]
  else
    [.cleanOutputDir, .copyAssets]
      ++ allUrls.map .crawlFetch
      ++ [.handleUploads, .ensure404, .shutdown]

example : mainAfterSitemap [] = [.fatalThrow "Empty sitemap", .shutdown, .exitProcess 1] := by
  decide

/-! ### Lemmas about the URL normalizer -/

theorem jsStartsWith_slash_iff (l : List Char) :
    jsStartsWith l ['/'] = true ↔ ∃ t, l = '/' :: t := by
  cases l with
  | nil => simp [jsStartsWith, List.isPrefixOf]
  | cons c t =>
    simp only [jsStartsWith, List.isPrefixOf, List.isPrefixOf_nil_left, Bool.and_true,
      beq_iff_eq]
    constructor
    · intro h
      exact ⟨t, by rw [h]⟩
    · rintro ⟨t', ht'⟩
      cases ht'
      rfl

theorem jsStartsWith_slashslash_iff (l : List Char) :
    jsStartsWith l ['/', '/'] = true ↔ ∃ t, l = '/' :: '/' :: t := by
  cases l with
  | nil => simp [jsStartsWith, List.isPrefixOf]
  | cons c t =>
    cases t with
    | nil => simp [jsStartsWith, List.isPrefixOf]
    | cons c' t' =>
      simp only [jsStartsWith, List.isPrefixOf, List.isPrefixOf_nil_left, Bool.and_true,
        Bool.and_eq_true, beq_iff_eq]
      constructor
      · rintro ⟨h1, h2⟩
        exact ⟨t', by rw [← h1, ← h2]⟩
      · rintro ⟨t'', ht''⟩
        cases ht''
        exact ⟨rfl, rfl⟩

theorem takeUntilQF_no_query (s : List Char) :
    '?' ∉ takeUntilQueryOrFragment s ∧ '#' ∉ takeUntilQueryOrFragment s := by
  constructor <;>
  · intro h
    have := List.mem_takeWhile_imp h
    simp at this

theorem takeUntilQF_eq_self {s : List Char} (h : ∀ c ∈ s, c ≠ '?' ∧ c ≠ '#') :
    takeUntilQueryOrFragment s = s := by
  rw [takeUntilQueryOrFragment, List.takeWhile_eq_self_iff]
  intro c hc
  have := h c hc
  simp [this.1, this.2]

theorem takeUntilQF_cons_slash (t : List Char) :
    takeUntilQueryOrFragment ('/' :: t) = '/' :: takeUntilQueryOrFragment t := by
  rw [takeUntilQueryOrFragment, List.takeWhile_cons, if_pos (by decide)]
  rfl

theorem jsEndsWith_append_singleton (l : List Char) (c : Char) :
    jsEndsWith (l ++ [c]) [c] = true := by
  rw [jsEndsWith, List.isSuffixOf_iff_suffix]
  exact List.suffix_append l [c]

theorem mem_of_jsEndsWith {l s : List Char} {a : Char}
    (h : jsEndsWith l s = true) (ha : a ∈ s) : a ∈ l := by
  rw [jsEndsWith, List.isSuffixOf_iff_suffix] at h
  exact h.sublist.mem ha

theorem allSlash_jsEndsWith {l : List Char} (h : ∀ c ∈ l, c = '/') (hne : l ≠ []) :
    jsEndsWith l ['/'] = true := by
  rw [jsEndsWith, List.isSuffixOf_iff_suffix]
  have hlast : l.getLast hne = '/' := h _ (List.getLast_mem hne)
  refine ⟨l.dropLast, ?_⟩
  rw [← hlast]
  exact List.dropLast_append_getLast hne

theorem isFileRe_dot_mem {s : List Char} (h : isFileRe s = true) : '.' ∈ s := by
  simp only [isFileRe, Bool.and_eq_true, beq_iff_eq] at h
  obtain ⟨-, h2⟩ := h
  have hmem : '.' ∈ s.reverse.drop (s.reverse.takeWhile isAlnumChar).length := by
    cases hd : s.reverse.drop (s.reverse.takeWhile isAlnumChar).length with
    | nil => rw [hd] at h2; simp at h2
    | cons c t =>
      rw [hd] at h2
      simp only [List.head?_cons, Option.some.injEq] at h2
      rw [h2] at hd ⊢
      exact List.mem_cons_self _ _
  have := (List.drop_sublist _ _).mem hmem
  exact List.mem_reverse.mp this

theorem isFileRe_of_no_dot {s : List Char} (h : '.' ∉ s) : isFileRe s = false := by
  cases hf : isFileRe s with
  | false => rfl
  | true => exact absurd (isFileRe_dot_mem hf) h

theorem allSlash_isFileRe {l : List Char} (h : ∀ c ∈ l, c = '/') :
    isFileRe l = false := by
  refine isFileRe_of_no_dot ?_
  intro hmem
  have := h _ hmem
  simp at this

theorem urlPathname_some_slash {u path : List Char} (h : urlPathname u = some path) :
    ∃ t, path = '/' :: t := by
  simp only [urlPathname] at h
  split_ifs at h with h1 h2 h3 h4
  · obtain ⟨t, ht⟩ := (jsStartsWith_slash_iff _).mp h3
    rw [ht, takeUntilQF_cons_slash] at h
    exact ⟨_, (Option.some.injEq _ _ ▸ h).symm⟩
  · exact ⟨[], (Option.some.injEq _ _ ▸ h).symm⟩
  · obtain ⟨t, ht⟩ := (jsStartsWith_slash_iff _).mp h4
    rw [ht] at h
    exact ⟨_, (Option.some.injEq _ _ ▸ h).symm⟩
  · exact ⟨_, (Option.some.injEq _ _ ▸ h).symm⟩

theorem urlPathname_some_no_qf {u path : List Char} (h : urlPathname u = some path) :
    '?' ∉ path ∧ '#' ∉ path := by
  simp only [urlPathname] at h
  split_ifs at h with h1 h2 h3 h4
  · cases h
    exact takeUntilQF_no_query _
  · cases h
    constructor <;> simp
  · cases h
    exact takeUntilQF_no_query _
  · cases h
    have hq := takeUntilQF_no_query u
    constructor <;>
    · intro hc
      rcases List.mem_cons.mp hc with hc | hc
      · simp at hc
      · first
        | exact hq.1 hc
        | exact hq.2 hc

theorem preSlashPath_of_some {u path : List Char} (h : urlPathname u = some path) :
    preSlashPath u = path := by
  obtain ⟨t, ht⟩ := urlPathname_some_slash h
  have hsw : jsStartsWith path ['/'] = true := (jsStartsWith_slash_iff _).mpr ⟨t, ht⟩
  simp only [preSlashPath, h, hsw, if_true]

theorem preSlashPath_slash (u : List Char) : ∃ t, preSlashPath u = '/' :: t := by
  cases hu : urlPathname u with
  | some path =>
    rw [preSlashPath_of_some hu]
    exact urlPathname_some_slash hu
  | none =>
    simp only [preSlashPath, hu]
    split_ifs with h
    · exact (jsStartsWith_slash_iff _).mp h
    · exact ⟨_, rfl⟩

theorem preSlashPath_no_qf (u : List Char) :
    '?' ∉ preSlashPath u ∧ '#' ∉ preSlashPath u := by
  cases hu : urlPathname u with
  | some path =>
    rw [preSlashPath_of_some hu]
    exact urlPathname_some_no_qf hu
  | none =>
    simp only [preSlashPath, hu]
    have hq := takeUntilQF_no_query u
    split_ifs with h
    · exact hq
    · constructor <;>
      · intro hc
        rcases List.mem_cons.mp hc with hc | hc
        · simp at hc
        · first
          | exact hq.1 hc
          | exact hq.2 hc

/-- Characterization of `normalizeUrlL`: in the URL-parse branch the
trailing slash is governed by `p.includes(".")`; in the fallback branch
by the `notFileLike` regex. -/
theorem normalizeUrlL_eq (u : List Char) :
    normalizeUrlL u =
      if parseOk u = true then
        if '.' ∈ preSlashPath u then preSlashPath u
        else if jsEndsWith (preSlashPath u) ['/'] = true then preSlashPath u
        else preSlashPath u ++ ['/']
      else
        if isFileRe (preSlashPath u) = true then preSlashPath u
        else if jsEndsWith (preSlashPath u) ['/'] = true then preSlashPath u
        else preSlashPath u ++ ['/'] := by
  cases hu : urlPathname u with
  | some path =>
    have hps : preSlashPath u = path := preSlashPath_of_some hu
    have hpo : parseOk u = true := by simp [parseOk, hu]
    obtain ⟨t, ht⟩ := urlPathname_some_slash hu
    have hsw : jsStartsWith path ['/'] = true := (jsStartsWith_slash_iff _).mpr ⟨t, ht⟩
    simp only [normalizeUrlL, hu, hps, hpo, if_true, hsw]
    by_cases hdot : '.' ∈ path
    · have hinc : jsIncludesChar path '.' = true := by
        rw [jsIncludesChar, List.contains]
        exact List.elem_iff.mpr hdot
      simp [hinc, hdot]
    · have hinc : jsIncludesChar path '.' = false := by
        rw [jsIncludesChar, List.contains]
        cases he : List.elem '.' path with
        | false => rfl
        | true => exact absurd (List.elem_iff.mp he) hdot
      have he1 : jsEndsWith path ".html".data = false := by
        cases he : jsEndsWith path ".html".data with
        | false => rfl
        | true => exact absurd (mem_of_jsEndsWith he (by decide)) hdot
      have he2 : jsEndsWith path ".htm".data = false := by
        cases he : jsEndsWith path ".htm".data with
        | false => rfl
        | true => exact absurd (mem_of_jsEndsWith he (by decide)) hdot
      simp only [he1, he2, hinc, Bool.not_false, Bool.and_self, Bool.and_true, if_true,
        hdot, if_false]
      cases hxe : jsEndsWith path ['/'] with
      | false => simp [hxe, hdot]
      | true => simp [hxe, hdot]
  | none =>
    have hpo : parseOk u = false := by simp [parseOk, hu]
    simp only [normalizeUrlL, hu, hpo, Bool.false_eq_true, if_false, preSlashPath]
    cases hfr : isFileRe (if jsStartsWith (takeUntilQueryOrFragment u) ['/'] then
        takeUntilQueryOrFragment u else '/' :: takeUntilQueryOrFragment u) with
    | true => simp [notFileLike, hfr]
    | false =>
      simp only [notFileLike, hfr, Bool.not_false, Bool.true_and, if_false]
      cases hxe : jsEndsWith (if jsStartsWith (takeUntilQueryOrFragment u) ['/'] then
          takeUntilQueryOrFragment u else '/' :: takeUntilQueryOrFragment u) ['/'] with
      | false => simp [hxe]
      | true => simp [hxe]

/-- `normalizeUrl` returns the pre-slash path, possibly with one `'/'`
appended. -/
theorem normalizeUrlL_self_or_slash (u : List Char) :
    normalizeUrlL u = preSlashPath u ∨ normalizeUrlL u = preSlashPath u ++ ['/'] := by
  rw [normalizeUrlL_eq]
  split_ifs <;> simp

theorem urlPathname_fixpoint {r : List Char}
    (h1 : jsStartsWith r ['/'] = true) (h2 : jsStartsWith r ['/', '/'] = false)
    (h3 : '?' ∉ r) (h4 : '#' ∉ r) : urlPathname r = some r := by
  have hr : takeUntilQueryOrFragment r = r := takeUntilQF_eq_self (by
    intro c hc
    exact ⟨fun e => h3 (e ▸ hc), fun e => h4 (e ▸ hc)⟩)
  simp only [urlPathname, h2, Bool.false_eq_true, if_false, hr, h1, if_true]

theorem dropWhile_head_not {α : Type} {p : α → Bool} {l : List α} {c : α} {t : List α}
    (h : l.dropWhile p = c :: t) : p c = false := by
  induction l with
  | nil => simp at h
  | cons x xs ih =>
    rw [List.dropWhile_cons] at h
    split_ifs at h with hx
    · exact ih h
    · cases h
      simpa using hx

theorem takeWhile_all_append {α : Type} {p : α → Bool} {a b : List α}
    (ha : ∀ c ∈ a, p c = true) : (a ++ b).takeWhile p = a ++ b.takeWhile p := by
  induction a with
  | nil => simp
  | cons x xs ih =>
    rw [List.cons_append, List.takeWhile_cons, if_pos (ha x (by simp))]
    rw [ih (fun c hc => ha c (by simp [hc]))]
    rfl

theorem urlPathname_none_shape {u : List Char} (h : urlPathname u = none) :
    ∃ w, takeUntilQueryOrFragment u = '/' :: '/' :: w ∧ ∀ c ∈ w, c = '/' := by
  simp only [urlPathname] at h
  split_ifs at h with hss hauth
  obtain ⟨t, htu⟩ := (jsStartsWith_slashslash_iff _).mp hss
  subst htu
  have hdrop : ('/' :: '/' :: t).drop 2 = t := rfl
  rw [hdrop] at hauth
  simp only [List.isEmpty_iff] at hauth
  refine ⟨t.takeWhile (fun c => c == '/'), ?_, ?_⟩
  · have hall : ∀ c ∈ t.takeWhile (fun c => c == '/'),
        (fun c => !(c == '?' || c == '#')) c = true := by
      intro c hc
      have := List.mem_takeWhile_imp hc
      simp only [beq_iff_eq] at this
      simp [this]
    have hstop : (t.dropWhile (fun c => c == '/')).takeWhile
        (fun c => !(c == '?' || c == '#')) = [] := by
      cases hd : t.dropWhile (fun c => c == '/') with
      | nil => simp
      | cons c cs =>
        have hc1 := dropWhile_head_not hd
        simp only [beq_eq_false_iff_ne, ne_eq] at hc1
        have hc2 : (!(c == '/' || c == '?' || c == '#')) = false := by
          rw [hd, List.takeWhile_cons] at hauth
          split_ifs at hauth with hck
          simpa using hck
        simp only [Bool.not_eq_false', Bool.or_eq_true, beq_iff_eq] at hc2
        rcases hc2 with (hc2 | hc2) | hc2
        · exact absurd hc2 hc1
        · rw [List.takeWhile_cons, if_neg]
          simp [hc2]
        · rw [List.takeWhile_cons, if_neg]
          simp [hc2]
    have hQF : takeUntilQueryOrFragment t = t.takeWhile (fun c => c == '/') := by
      conv_lhs =>
        rw [takeUntilQueryOrFragment,
          show t = t.takeWhile (fun c => c == '/') ++ t.dropWhile (fun c => c == '/') from
            (List.takeWhile_append_dropWhile _ _).symm]
      rw [takeWhile_all_append hall, hstop, List.append_nil]
    rw [takeUntilQF_cons_slash, takeUntilQF_cons_slash, hQF]
  · intro c hc
    have := List.mem_takeWhile_imp hc
    simpa using this

theorem urlPathname_all_slash {w : List Char} (hall : ∀ c ∈ w, c = '/') :
    urlPathname ('/' :: '/' :: w) = none := by
  have hss : jsStartsWith ('/' :: '/' :: w) ['/', '/'] = true :=
    (jsStartsWith_slashslash_iff _).mpr ⟨w, rfl⟩
  have hdw : w.dropWhile (fun c => c == '/') = [] := by
    rw [List.dropWhile_eq_nil_iff]
    intro c hc
    simp [hall c hc]
  simp only [urlPathname, hss, if_true]
  have hd2 : ('/' :: '/' :: w).drop 2 = w := rfl
  rw [hd2, hdw]
  simp

/-- If a path starts with `'/'` but not `"//"`, contains no `'?'` or
`'#'`, and either contains a dot or already ends with `'/'`, then
`normalizeUrl` leaves it fixed. -/
theorem normalizeUrlL_fix {r : List Char}
    (h1 : jsStartsWith r ['/'] = true) (h2 : jsStartsWith r ['/', '/'] = false)
    (h3 : '?' ∉ r) (h4 : '#' ∉ r)
    (h5 : '.' ∈ r ∨ jsEndsWith r ['/'] = true) :
    normalizeUrlL r = r := by
  have hup : urlPathname r = some r := urlPathname_fixpoint h1 h2 h3 h4
  have hps : preSlashPath r = r := preSlashPath_of_some hup
  have hpo : parseOk r = true := by simp [parseOk, hup]
  rw [normalizeUrlL_eq, if_pos hpo, hps]
  rcases h5 with h5 | h5
  · rw [if_pos h5]
  · by_cases hdot : '.' ∈ r
    · rw [if_pos hdot]
    · rw [if_neg hdot, if_pos h5]

/-! ## Theorems -/

/-- C1 counterexample: `"/"` and `"/index.html"` are both fixed points of
`normalizeUrl` — so both can appear in a deduplicated normalized sitemap —
yet they are distinct and `writeHtmlForPath` resolves both to the same
output file `index.html` under the output root.  The output-file mapping
is therefore not injective over every normalized, deduplicated set. -/
theorem outputFile_not_injective :
    normalizeUrl "/" = "/" ∧ normalizeUrl "/index.html" = "/index.html" ∧
    ("/" : String) ≠ "/index.html" ∧ outputFile "/" = outputFile "/index.html" := by
  decide

/-- C2: the code violates its own comment (line 64, "Don't retry 4xx
errors (except 429 rate limit)") and the spec's retry policy: the
`throw` for a non-429 4xx at line 66 is inside the `try`, so the `catch`
at line 70 swallows it and the loop retries a 404 like any other
failure.  With `retries = 2`, a fetch that fails twice and then succeeds
makes exactly 3 attempts and returns the success (the part of the claim
the code does satisfy), but a fetch that always returns HTTP 404 also
makes 3 attempts — not the 1 attempt the claim states. -/
theorem fetchWithRetry_retries_404 :
    (fetchWithRetry (fun n => if n < 2 then .thrown "ECONNREFUSED"
        else .resp ⟨true, 200⟩) 2).1 = .ok ⟨true, 200⟩ ∧
    (fetchWithRetry (fun n => if n < 2 then .thrown "ECONNREFUSED"
        else .resp ⟨true, 200⟩) 2).2.1 = 3 ∧
    (fetchWithRetry (fun _ => .resp ⟨false, 404⟩) 2).2.1 = 3 ∧
    (fetchWithRetry (fun _ => .resp ⟨false, 404⟩) 2).2.1 ≠ 1 := by
  exact ⟨rfl, rfl, rfl, by decide⟩

/-- C3 counterexample: `"/v1.2/docs"` has no dot-extension suffix
(`/\.[a-z0-9]+$/i` does not match), so by the claim its normalization
should end with `"/"`; but `normalizeUrl` leaves it untouched, because
the URL-parse branch tests `p.includes(".")` — any dot anywhere — not a
dot-extension suffix. -/
theorem normalizeUrl_trailing_slash_counterexample :
    isFileRe "/v1.2/docs".data = false ∧
    normalizeUrl "/v1.2/docs" = "/v1.2/docs" ∧
    jsEndsWith (normalizeUrl "/v1.2/docs").data ['/'] = false := by
  decide

/-- C4: if the merged URL list is empty, `main` throws
`Error("Empty sitemap")` at line 410, which the `catch` at line 493
turns into shutdown and `process.exit(1)`: no crawl fetch is issued and
`cleanDir` (line 416) is never reached, so the output directory is never
created or wiped. -/
theorem mainAfterSitemap_empty_aborts (allUrls : List String) (h : allUrls = []) :
    mainAfterSitemap allUrls
        = [.fatalThrow "Empty sitemap", .shutdown, .exitProcess 1] ∧
    MainEvent.cleanOutputDir ∉ mainAfterSitemap allUrls ∧
    ∀ u, MainEvent.crawlFetch u ∉ mainAfterSitemap allUrls := by
  subst h
  refine ⟨rfl, by decide, ?_⟩
  intro u hu
  simp [mainAfterSitemap] at hu

/-- Witness for `mainAfterSitemap_empty_aborts` at the empty list. -/
theorem mainAfterSitemap_empty_aborts_witness :
    mainAfterSitemap []
        = [.fatalThrow "Empty sitemap", .shutdown, .exitProcess 1] ∧
    MainEvent.cleanOutputDir ∉ mainAfterSitemap [] ∧
    ∀ u, MainEvent.crawlFetch u ∉ mainAfterSitemap [] :=
  mainAfterSitemap_empty_aborts [] rfl

/-- Helper: one unfolding plus induction gives the full behaviour of the
`fetchWithRetry` loop from any attempt index, with `fuel` attempts left. -/
theorem fetchWithRetryGo_spec (outcomes : Nat → FetchOutcome) (retries : Nat) :
    ∀ fuel attempt, 1 ≤ fuel →
      (∀ r n ds, fetchWithRetryGo outcomes retries fuel attempt = (.ok r, n, ds) →
        r.ok = true ∧ attempt + 1 ≤ n ∧ n ≤ attempt + fuel ∧
        ds = (List.range (n - 1)).map backoffDelay) ∧
      (∀ e n ds, fetchWithRetryGo outcomes retries fuel attempt = (.error e, n, ds) →
        n = attempt + fuel ∧ e = errorOfOutcome (outcomes (attempt + fuel - 1)) ∧
        ds = (List.range (n - 1)).map backoffDelay) := by
  intro fuel
  induction fuel with
  | zero => intro attempt h; omega
  | succ f ih =>
    intro attempt _
    constructor
    · intro r n ds h
      simp only [fetchWithRetryGo] at h
      cases hout : outcomes attempt with
      | resp resp =>
        rw [hout] at h
        dsimp only at h
        by_cases hok : resp.ok = true
        · rw [if_pos hok] at h
          simp only [Prod.mk.injEq] at h
          obtain ⟨h1, h2, h3⟩ := h
          cases h1
          subst h2
          subst h3
          exact ⟨hok, by omega, by omega, by simp⟩
        · rw [if_neg hok] at h
          by_cases hf : f = 0
          · rw [if_pos hf] at h
            simp only [Prod.mk.injEq] at h
            exact absurd h.1 (by simp)
          · rw [if_neg hf] at h
            have := (ih (attempt + 1) (by omega)).1 r n ds h
            exact ⟨this.1, by omega, by omega, this.2.2.2⟩
      | thrown m =>
        rw [hout] at h
        dsimp only at h
        by_cases hf : f = 0
        · rw [if_pos hf] at h
          simp only [Prod.mk.injEq] at h
          exact absurd h.1 (by simp)
        · rw [if_neg hf] at h
          have := (ih (attempt + 1) (by omega)).1 r n ds h
          exact ⟨this.1, by omega, by omega, this.2.2.2⟩
    · intro e n ds h
      simp only [fetchWithRetryGo] at h
      cases hout : outcomes attempt with
      | resp resp =>
        rw [hout] at h
        dsimp only at h
        by_cases hok : resp.ok = true
        · rw [if_pos hok] at h
          simp only [Prod.mk.injEq] at h
          exact absurd h.1 (by simp)
        · rw [if_neg hok] at h
          by_cases hf : f = 0
          · rw [if_pos hf] at h
            simp only [Prod.mk.injEq] at h
            obtain ⟨h1, h2, h3⟩ := h
            cases h1
            subst h2
            subst h3
            subst hf
            refine ⟨by omega, ?_, by simp⟩
            have ha : attempt + (0 + 1) - 1 = attempt := by omega
            rw [ha, hout]
            rfl
          · rw [if_neg hf] at h
            have := (ih (attempt + 1) (by omega)).2 e n ds h
            have ha : attempt + 1 + f - 1 = attempt + (f + 1) - 1 := by omega
            rw [ha] at this
            exact ⟨by omega, this.2.1, this.2.2⟩
      | thrown m =>
        rw [hout] at h
        dsimp only at h
        by_cases hf : f = 0
        · rw [if_pos hf] at h
          simp only [Prod.mk.injEq] at h
          obtain ⟨h1, h2, h3⟩ := h
          cases h1
          subst h2
          subst h3
          subst hf
          refine ⟨by omega, ?_, by simp⟩
          have ha : attempt + (0 + 1) - 1 = attempt := by omega
          rw [ha, hout]
          rfl
        · rw [if_neg hf] at h
          have := (ih (attempt + 1) (by omega)).2 e n ds h
          have ha : attempt + 1 + f - 1 = attempt + (f + 1) - 1 := by omega
          rw [ha] at this
          exact ⟨by omega, this.2.1, this.2.2⟩

/-- C10: `fetchWithRetry` never returns a non-`ok` response: for every
sequence of fetch outcomes it either returns a response with `ok = true`
(making at most `retries + 1` attempts, with the delay before attempt
`i + 1` equal to `min(1000 * 2^i, 5000)` ms), or throws the error of the
last attempt after exhausting all `retries + 1` attempts. -/
theorem fetchWithRetry_ok_or_throws (outcomes : Nat → FetchOutcome) (retries : Nat) :
    (∀ r n ds, fetchWithRetry outcomes retries = (.ok r, n, ds) →
      r.ok = true ∧ n ≤ retries + 1 ∧
      ds = (List.range (n - 1)).map backoffDelay) ∧
    (∀ e n ds, fetchWithRetry outcomes retries = (.error e, n, ds) →
      n = retries + 1 ∧ e = errorOfOutcome (outcomes retries) ∧
      ds = (List.range retries).map backoffDelay) := by
  have h := fetchWithRetryGo_spec outcomes retries (retries + 1) 0 (by omega)
  constructor
  · intro r n ds hr
    have := h.1 r n ds hr
    exact ⟨this.1, by omega, this.2.2.2⟩
  · intro e n ds he
    have := h.2 e n ds he
    have ha : 0 + (retries + 1) - 1 = retries := by omega
    rw [ha] at this
    have hn : n = retries + 1 := by omega
    refine ⟨hn, this.2.1, ?_⟩
    have : ds = (List.range (n - 1)).map backoffDelay := this.2.2
    rw [this, hn]
    rfl

/-- Witness for `fetchWithRetry_ok_or_throws`: a first-attempt success
with `retries = 1`. -/
theorem fetchWithRetry_ok_or_throws_witness :
    (⟨true, 200⟩ : JsResponse).ok = true ∧ 1 ≤ 1 + 1 ∧
      ([] : List Nat) = (List.range (1 - 1)).map backoffDelay :=
  (fetchWithRetry_ok_or_throws (fun _ => .resp ⟨true, 200⟩) 1).1 ⟨true, 200⟩ 1 [] rfl

/-- Whether the pagination loop stops after this page: a non-2xx
response (`break` at line 145) or a short page (`break` at line 151). -/
def pageStops (r : PageResp) : Bool :=
  match r with
  | .notOk => true
  | .ok items => decide (items.length < perPage)

/-- The URLs a page contributes to the result (`notOk` pages contribute
nothing: the loop breaks before reading the body). -/
def pageContrib (r : PageResp) : List String :=
  match r with
  | .notOk => []
  | .ok items => pageUrls items

/-- Helper: the pagination loop from start page `s` with `fuel`
iterations available, when page `s + fuel - 1` is the first stopping
page. -/
theorem fetchAllPiecesGo_spec (pages : Nat → PageResp) :
    ∀ fuel s, 1 ≤ fuel →
      pageStops (pages (s + fuel - 1)) = true →
      (∀ j, s ≤ j → j < s + fuel - 1 → pageStops (pages j) = false) →
      fetchAllPiecesGo pages fuel s
        = (List.range' s fuel, (List.range' s fuel).flatMap fun j => pageContrib (pages j)) := by
  intro fuel
  induction fuel with
  | zero => intro s h; omega
  | succ f ih =>
    intro s _ hstop hprev
    by_cases hf : f = 0
    · subst hf
      have hs : s + 1 - 1 = s := by omega
      rw [hs] at hstop
      simp only [fetchAllPiecesGo]
      cases hp : pages s with
      | notOk => simp [List.range', pageContrib, hp]
      | ok items =>
        rw [hp] at hstop
        simp only [pageStops, decide_eq_true_eq] at hstop
        dsimp only
        rw [if_pos hstop]
        simp [List.range', pageContrib, hp]
    · have hs : pageStops (pages s) = false := hprev s (by omega) (by omega)
      simp only [fetchAllPiecesGo]
      cases hp : pages s with
      | notOk => rw [hp] at hs; simp [pageStops] at hs
      | ok items =>
        rw [hp] at hs
        simp only [pageStops, decide_eq_false_iff_not] at hs
        dsimp only
        rw [if_neg hs]
        have hrec := ih (s + 1) (by omega)
          (by have : s + 1 + f - 1 = s + (f + 1) - 1 := by omega
              rw [this]; exact hstop)
          (by intro j hj1 hj2
              exact hprev j (by omega) (by omega))
        rw [hrec, List.range'_succ]
        simp [pageContrib, hp]

/-- C7: `fetchAllPieces` paginates at `perPage = 100` starting at page 1,
requests page `n + 1` only when page `n` returned exactly `perPage`
results, stops at the first short page or non-2xx response, and returns
the normalized `_url` of every item seen, in page order.  Hypotheses:
the endpoint honours `perPage` (returns at most 100 results per page)
and page `k` is the first stopping page (so the loop terminates; `k`
also serves as the iteration bound of the model). -/
theorem fetchAllPieces_pagination (pages : Nat → PageResp) (k : Nat)
    (hk : 1 ≤ k)
    (hle : ∀ n items, pages n = .ok items → items.length ≤ perPage)
    (hstop : pageStops (pages k) = true)
    (hprev : ∀ j, 1 ≤ j → j < k → pageStops (pages j) = false) :
    fetchAllPieces pages k
      = (List.range' 1 k, (List.range' 1 k).flatMap fun j => pageContrib (pages j)) ∧
    ∀ j, 1 ≤ j → j < k → ∃ items, pages j = .ok items ∧ items.length = perPage := by
  constructor
  · have h1k : 1 + k - 1 = k := by omega
    exact fetchAllPiecesGo_spec pages k 1 hk (by rw [h1k]; exact hstop)
      (by intro j hj1 hj2; exact hprev j hj1 (by omega))
  · intro j hj1 hj2
    have hs := hprev j hj1 hj2
    cases hp : pages j with
    | notOk => rw [hp] at hs; simp [pageStops] at hs
    | ok items =>
      rw [hp] at hs
      simp only [pageStops, decide_eq_false_iff_not, Nat.not_lt] at hs
      exact ⟨items, rfl, Nat.le_antisymm (hle j items hp) hs⟩

/-- Witness for `fetchAllPieces_pagination`: a single short page. -/
theorem fetchAllPieces_pagination_witness :
    fetchAllPieces (fun _ => PageResp.ok [some "/x"]) 1
      = (List.range' 1 1, (List.range' 1 1).flatMap fun j =>
          pageContrib ((fun _ => PageResp.ok [some "/x"]) j)) ∧
    ∀ j, 1 ≤ j → j < 1 →
      ∃ items, (fun _ => PageResp.ok [some "/x"]) j = .ok items ∧ items.length = perPage :=
  fetchAllPieces_pagination (fun _ => PageResp.ok [some "/x"]) 1 (by omega)
    (by intro n items h; cases h; decide) (by decide)
    (by intro j hj1 hj2; omega)

/-- C5 counterexample: `normalizeUrl` is not idempotent on every string.
`normalizeUrl("//a//b")` parses a protocol-relative URL with host `a`
and pathname `"//b"`, yielding `"//b/"`; normalizing that again parses
host `b` and yields `"/"`. -/
theorem normalizeUrl_not_idempotent :
    normalizeUrl (normalizeUrl "//a//b") ≠ normalizeUrl "//a//b" := by
  decide

/-- C6: `applyLocalePrefix` never double-applies a prefix.  An empty
(falsy) prefix returns the list unchanged; a URL already equal to the
prefix or starting with `prefix + "/"` is mapped to itself, so a list of
such URLs is returned unchanged. -/
theorem applyLocalePrefix_no_double (urls : List String) (p : String) :
    applyLocalePrefix urls "" = urls ∧
    (∀ u, u = p ∨ jsStartsWith u.data (p ++ "/").data = true →
      applyLocalePrefixOne p u = u) ∧
    ((∀ u ∈ urls, u = p ∨ jsStartsWith u.data (p ++ "/").data = true) →
      applyLocalePrefix urls p = urls) := by
  refine ⟨by simp [applyLocalePrefix], ?_, ?_⟩
  · intro u hu
    rcases hu with h | h
    · subst h
      simp [applyLocalePrefixOne]
    · have h' : jsStartsWith u.data (p.data ++ ['/']) = true := by simpa using h
      simp [applyLocalePrefixOne, h']
  · intro hall
    by_cases hp : p = ""
    · simp [applyLocalePrefix, hp]
    · rw [applyLocalePrefix, if_neg hp]
      have : ∀ u ∈ urls, applyLocalePrefixOne p u = u := by
        intro u hu
        rcases hall u hu with h | h
        · subst h
          simp [applyLocalePrefixOne]
        · have h' : jsStartsWith u.data (p.data ++ ['/']) = true := by simpa using h
          simp [applyLocalePrefixOne, h']
      calc urls.map (applyLocalePrefixOne p) = urls.map id := List.map_congr_left this
        _ = urls := List.map_id urls

/-- Witness for `applyLocalePrefix_no_double`: prefix `"/fr"` applied to
`"/fr/about/"` leaves it unchanged, and the empty prefix is the
identity. -/
theorem applyLocalePrefix_no_double_witness :
    applyLocalePrefix ["/fr/about/"] "" = ["/fr/about/"] ∧
    applyLocalePrefixOne "/fr" "/fr/about/" = "/fr/about/" ∧
    applyLocalePrefix ["/fr/about/"] "/fr" = ["/fr/about/"] := by
  have h := applyLocalePrefix_no_double ["/fr/about/"] "/fr"
  refine ⟨h.1, h.2.1 "/fr/about/" (Or.inr (by decide)), h.2.2 ?_⟩
  intro u hu
  simp only [List.mem_singleton] at hu
  subst hu
  exact Or.inr (by decide)

/-- C9: `normalizeUrl` strips query strings and fragments —
`normalizeUrl("/a/b?x=1#y") = "/a/b/"` — and for every input string the
result contains no `'?'` or `'#'` and begins with `'/'`. -/
theorem normalizeUrl_strips_query_fragment :
    normalizeUrl "/a/b?x=1#y" = "/a/b/" ∧
    ∀ u : String, '?' ∉ (normalizeUrl u).data ∧ '#' ∉ (normalizeUrl u).data ∧
      jsStartsWith (normalizeUrl u).data ['/'] = true := by
  refine ⟨by decide, ?_⟩
  intro u
  have hd : (normalizeUrl u).data = normalizeUrlL u.data := rfl
  rw [hd]
  obtain ⟨t, ht⟩ := preSlashPath_slash u.data
  have hq := preSlashPath_no_qf u.data
  rcases normalizeUrlL_self_or_slash u.data with h | h <;> rw [h]
  · exact ⟨hq.1, hq.2, (jsStartsWith_slash_iff _).mpr ⟨t, ht⟩⟩
  · refine ⟨?_, ?_, ?_⟩
    · intro hc
      rcases List.mem_append.mp hc with hc | hc
      · exact hq.1 hc
      · simp at hc
    · intro hc
      rcases List.mem_append.mp hc with hc | hc
      · exact hq.2 hc
      · simp at hc
    · refine (jsStartsWith_slash_iff _).mpr ⟨t ++ ['/'], ?_⟩
      rw [ht]
      rfl

/-- C3 amended: in the URL-parse branch the trailing-slash rule is
governed by `p.includes(".")` — any dot anywhere — not by the
dot-extension-suffix test of the claim.  Precisely: if the pre-slash
path contains no dot at all, the result ends with `'/'`; in the
URL-parse branch a path containing a dot (file-like or not, e.g.
`"/v1.2/docs"`) is left untouched; only in the parse-failure fallback
branch is the dot-extension regex used (file-like untouched, otherwise
a trailing `'/'` is ensured); a slash is never appended to a path
already ending in `'/'`. -/
theorem normalizeUrl_trailing_slash_amended (u : String) :
    ('.' ∉ preSlashPath u.data → jsEndsWith (normalizeUrl u).data ['/'] = true) ∧
    (parseOk u.data = true → '.' ∈ preSlashPath u.data →
      (normalizeUrl u).data = preSlashPath u.data) ∧
    (parseOk u.data = false → isFileRe (preSlashPath u.data) = true →
      (normalizeUrl u).data = preSlashPath u.data) ∧
    (parseOk u.data = false → notFileLike (preSlashPath u.data) = true →
      jsEndsWith (normalizeUrl u).data ['/'] = true) ∧
    (jsEndsWith (preSlashPath u.data) ['/'] = true →
      (normalizeUrl u).data = preSlashPath u.data) := by
  have hd : (normalizeUrl u).data = normalizeUrlL u.data := rfl
  rw [hd, normalizeUrlL_eq]
  by_cases h1 : parseOk u.data = true
  · rw [if_pos h1]
    by_cases h2 : '.' ∈ preSlashPath u.data
    · rw [if_pos h2]
      exact ⟨fun hno => absurd h2 hno, fun _ _ => rfl,
        fun hpf _ => absurd (h1.symm.trans hpf) (by decide),
        fun hpf _ => absurd (h1.symm.trans hpf) (by decide),
        fun _ => rfl⟩
    · rw [if_neg h2]
      by_cases h3 : jsEndsWith (preSlashPath u.data) ['/'] = true
      · rw [if_pos h3]
        exact ⟨fun _ => h3, fun _ hdot => absurd hdot h2,
          fun hpf _ => absurd (h1.symm.trans hpf) (by decide),
          fun hpf _ => absurd (h1.symm.trans hpf) (by decide),
          fun _ => rfl⟩
      · rw [if_neg h3]
        exact ⟨fun _ => jsEndsWith_append_singleton _ _, fun _ hdot => absurd hdot h2,
          fun hpf _ => absurd (h1.symm.trans hpf) (by decide),
          fun hpf _ => absurd (h1.symm.trans hpf) (by decide),
          fun hends => absurd hends h3⟩
  · rw [if_neg h1]
    have h1f : parseOk u.data = false := by
      revert h1
      cases parseOk u.data <;> simp
    by_cases h4 : isFileRe (preSlashPath u.data) = true
    · rw [if_pos h4]
      exact ⟨fun hno => absurd (isFileRe_dot_mem h4) hno,
        fun hpt _ => absurd (h1f.symm.trans hpt) (by decide),
        fun _ _ => rfl,
        fun _ hnf => absurd ((congrArg (!·) h4).symm.trans hnf) (by decide),
        fun _ => rfl⟩
    · rw [if_neg h4]
      have h4f : isFileRe (preSlashPath u.data) = false := by
        revert h4
        cases isFileRe (preSlashPath u.data) <;> simp
      by_cases h3 : jsEndsWith (preSlashPath u.data) ['/'] = true
      · rw [if_pos h3]
        exact ⟨fun _ => h3,
          fun hpt _ => absurd (h1f.symm.trans hpt) (by decide),
          fun _ hf => absurd (h4f.symm.trans hf) (by decide),
          fun _ _ => h3, fun _ => rfl⟩
      · rw [if_neg h3]
        exact ⟨fun _ => jsEndsWith_append_singleton _ _,
          fun hpt _ => absurd (h1f.symm.trans hpt) (by decide),
          fun _ hf => absurd (h4f.symm.trans hf) (by decide),
          fun _ _ => jsEndsWith_append_singleton _ _,
          fun hends => absurd hends h3⟩

/-- Witness for `normalizeUrl_trailing_slash_amended`: `"/ab"` contains
no dot, so its normalization ends with `'/'`. -/
theorem normalizeUrl_trailing_slash_amended_witness :
    jsEndsWith (normalizeUrl "/ab").data ['/'] = true :=
  (normalizeUrl_trailing_slash_amended "/ab").1 (by decide)

/-- C5 amended: `normalizeUrl` is idempotent on every input whose parsed
pathname does not begin with `"//"` (a result beginning with `"//"`
re-parses as a protocol-relative URL, collapsing the first segment into
a host, as the counterexample `"//a//b"` shows; inputs whose parse
throws are all runs of slashes after query/fragment stripping and are
fixed points). -/
theorem normalizeUrl_idempotent_amended (u : String)
    (h : ∀ path, urlPathname u.data = some path → jsStartsWith path ['/', '/'] = false) :
    normalizeUrl (normalizeUrl u) = normalizeUrl u := by
  apply String.ext
  have hd : (normalizeUrl (normalizeUrl u)).data = normalizeUrlL (normalizeUrlL u.data) := rfl
  have hd2 : (normalizeUrl u).data = normalizeUrlL u.data := rfl
  rw [hd, hd2]
  cases hu : urlPathname u.data with
  | some path =>
    have hnss : jsStartsWith path ['/', '/'] = false := h path hu
    have hps : preSlashPath u.data = path := preSlashPath_of_some hu
    obtain ⟨t, ht⟩ := urlPathname_some_slash hu
    have hq := urlPathname_some_no_qf hu
    have hsl : jsStartsWith path ['/'] = true := (jsStartsWith_slash_iff _).mpr ⟨t, ht⟩
    have hpo : parseOk u.data = true := by simp [parseOk, hu]
    conv_lhs => rw [normalizeUrlL_eq u.data, if_pos hpo, hps]
    conv_rhs => rw [normalizeUrlL_eq u.data, if_pos hpo, hps]
    by_cases hdot : '.' ∈ path
    · rw [if_pos hdot]
      exact normalizeUrlL_fix hsl hnss hq.1 hq.2 (Or.inl hdot)
    · rw [if_neg hdot]
      by_cases hends : jsEndsWith path ['/'] = true
      · rw [if_pos hends]
        exact normalizeUrlL_fix hsl hnss hq.1 hq.2 (Or.inr hends)
      · rw [if_neg hends]
        have hsl2 : jsStartsWith (path ++ ['/']) ['/'] = true := by
          refine (jsStartsWith_slash_iff _).mpr ⟨t ++ ['/'], ?_⟩
          rw [ht]
          rfl
        have hnss2 : jsStartsWith (path ++ ['/']) ['/', '/'] = false := by
          cases hb : jsStartsWith (path ++ ['/']) ['/', '/'] with
          | false => rfl
          | true =>
            obtain ⟨w, hw⟩ := (jsStartsWith_slashslash_iff _).mp hb
            rw [ht] at hw
            have hw' : t ++ ['/'] = '/' :: w := by
              have := hw
              simpa using this
            cases t with
            | nil =>
              rw [ht] at hends
              exact absurd (by decide : jsEndsWith ['/'] ['/'] = true) hends
            | cons c t' =>
              have hc : c = '/' := by
                have := congrArg (fun l => l.head?) hw'
                simpa using this
              apply absurd hnss
              rw [ht, hc]
              simp [(jsStartsWith_slashslash_iff _).mpr ⟨t', rfl⟩]
        have hq1 : '?' ∉ path ++ ['/'] := by
          intro hc
          rcases List.mem_append.mp hc with hc | hc
          · exact hq.1 hc
          · simp at hc
        have hq2 : '#' ∉ path ++ ['/'] := by
          intro hc
          rcases List.mem_append.mp hc with hc | hc
          · exact hq.2 hc
          · simp at hc
        exact normalizeUrlL_fix hsl2 hnss2 hq1 hq2
          (Or.inr (jsEndsWith_append_singleton _ _))
  | none =>
    obtain ⟨w, hw, hall⟩ := urlPathname_none_shape hu
    have hpo : parseOk u.data = false := by simp [parseOk, hu]
    have hallp : ∀ c ∈ ('/' :: '/' :: w), c = '/' := by
      intro c hc
      rcases List.mem_cons.mp hc with hc | hc
      · exact hc
      rcases List.mem_cons.mp hc with hc | hc
      · exact hc
      · exact hall c hc
    have hps : preSlashPath u.data = '/' :: '/' :: w := by
      have hsw : jsStartsWith (takeUntilQueryOrFragment u.data) ['/'] = true := by
        rw [hw]
        exact (jsStartsWith_slash_iff _).mpr ⟨'/' :: w, rfl⟩
      simp only [preSlashPath, hu]
      rw [if_pos hsw]
      exact hw
    have hfr : isFileRe (preSlashPath u.data) = false := by
      rw [hps]
      exact allSlash_isFileRe hallp
    have hends : jsEndsWith (preSlashPath u.data) ['/'] = true := by
      rw [hps]
      exact allSlash_jsEndsWith hallp (by simp)
    conv_lhs => rw [normalizeUrlL_eq u.data, if_neg (by simp [hpo]), if_neg (by simp [hfr]),
      if_pos hends]
    conv_rhs => rw [normalizeUrlL_eq u.data, if_neg (by simp [hpo]), if_neg (by simp [hfr]),
      if_pos hends]
    -- now: normalizeUrlL (preSlashPath u.data) = preSlashPath u.data, all slashes
    rw [hps]
    have hu2 : urlPathname ('/' :: '/' :: w) = none := urlPathname_all_slash hall
    have hpo2 : parseOk ('/' :: '/' :: w) = false := by simp [parseOk, hu2]
    have hps2 : preSlashPath ('/' :: '/' :: w) = '/' :: '/' :: w := by
      have hqf : takeUntilQueryOrFragment ('/' :: '/' :: w) = '/' :: '/' :: w :=
        takeUntilQF_eq_self (by
          intro c hc
          have := hallp c hc
          simp [this])
      have hsw : jsStartsWith (takeUntilQueryOrFragment ('/' :: '/' :: w)) ['/'] = true := by
        rw [hqf]
        exact (jsStartsWith_slash_iff _).mpr ⟨'/' :: w, rfl⟩
      simp only [preSlashPath, hu2]
      rw [if_pos hsw]
      exact hqf
    rw [normalizeUrlL_eq, if_neg (by simp [hpo2]), hps2,
      if_neg (by simp [allSlash_isFileRe hallp]),
      if_pos (allSlash_jsEndsWith hallp (by simp))]

/-- Witness for `normalizeUrl_idempotent_amended` at `"/about"`. -/
theorem normalizeUrl_idempotent_amended_witness :
    normalizeUrl (normalizeUrl "/about") = normalizeUrl "/about" :=
  normalizeUrl_idempotent_amended "/about" (by
    intro path hp
    rw [show urlPathname ("/about" : String).data
        = some ("/about" : String).data from rfl] at hp
    injection hp with hp
    rw [← hp]
    decide)

/-- Helper: an element fetched by index can be split off the in-flight
list up to permutation. -/
theorem get_cons_eraseIdx_perm {α : Type} :
    ∀ (l : List α) (i : Nat) (x : α),
      l.get? i = some x → List.Perm l (x :: l.eraseIdx i) := by
  intro l
  induction l with
  | nil => intro i x h; simp at h
  | cons y t ih =>
    intro i x h
    cases i with
    | zero =>
      simp only [List.get?] at h
      injection h with h
      subst h
      simp [List.eraseIdx]
    | succ i =>
      simp only [List.get?] at h
      have hperm := ih i x h
      have hsw := List.Perm.swap x y (t.eraseIdx i)
      simpa [List.eraseIdx] using (hperm.cons y).trans hsw

/-- The run-level invariant of the worker pool: counters match the
completion trace, one error record per failure (each carrying the item
and its worker's message), and no item is lost or duplicated. -/
def mlInv {α : Type} (outcome : α → Option String) (items : List α)
    (s : MLState α) : Prop :=
  s.success + s.failed = s.done.length ∧
  s.errors.length = s.failed ∧
  (∀ pr ∈ s.errors, outcome pr.1 = some pr.2) ∧
  List.Perm (s.done ++ s.inflight ++ s.queue) items

theorem mlStep_inv {α : Type} (outcome : α → Option String) (limit : Nat)
    (items : List α) (s : MLState α) (a : MLAct)
    (h : mlInv outcome items s) : mlInv outcome items (mlStep outcome limit s a) := by
  obtain ⟨h1, h2, h3, h4⟩ := h
  have h4' : List.Perm (s.done ++ (s.inflight ++ s.queue)) items := by
    rw [← List.append_assoc]
    exact h4
  cases a with
  | take =>
    simp only [mlStep]
    split_ifs with hl
    · cases hq : s.queue with
      | nil => exact ⟨h1, h2, h3, h4⟩
      | cons it rest =>
        refine ⟨h1, h2, h3, ?_⟩
        have he : s.done ++ (s.inflight ++ [it]) ++ rest
            = s.done ++ (s.inflight ++ (it :: rest)) := by
          simp
        rw [he]
        rw [hq] at h4'
        rw [← List.append_assoc] at h4'
        rw [← List.append_assoc]
        exact h4'
    · exact ⟨h1, h2, h3, h4⟩
  | complete i =>
    simp only [mlStep]
    cases hg : s.inflight.get? i with
    | none => exact ⟨h1, h2, h3, h4⟩
    | some it =>
      dsimp only
      have hperm := get_cons_eraseIdx_perm _ _ _ hg
      have hktotal : ∀ extra : List (α × String),
          List.Perm ((s.done ++ [it]) ++ s.inflight.eraseIdx i ++ s.queue) items := by
        intro _
        have step1 : List.Perm ((it :: s.inflight.eraseIdx i) ++ s.queue)
            (s.inflight ++ s.queue) := hperm.symm.append_right s.queue
        have step2 : List.Perm (s.done ++ ((it :: s.inflight.eraseIdx i) ++ s.queue))
            (s.done ++ (s.inflight ++ s.queue)) := step1.append_left s.done
        have he : (s.done ++ [it]) ++ s.inflight.eraseIdx i ++ s.queue
            = s.done ++ ((it :: s.inflight.eraseIdx i) ++ s.queue) := by
          simp
        rw [he]
        exact step2.trans h4'
      cases ho : outcome it with
      | none =>
        dsimp only
        refine ⟨?_, h2, h3, hktotal []⟩
        simp only [List.length_append, List.length_singleton]
        omega
      | some msg =>
        dsimp only
        refine ⟨?_, ?_, ?_, hktotal []⟩
        · simp only [List.length_append, List.length_singleton]
          omega
        · simp only [List.length_append, List.length_singleton]
          omega
        · intro pr hpr
          rcases List.mem_append.mp hpr with hpr | hpr
          · exact h3 pr hpr
          · simp only [List.mem_singleton] at hpr
            subst hpr
            exact ho

theorem mlFoldl_inv {α : Type} (outcome : α → Option String) (limit : Nat)
    (items : List α) :
    ∀ (sched : List MLAct) (s : MLState α), mlInv outcome items s →
      mlInv outcome items (sched.foldl (mlStep outcome limit) s) := by
  intro sched
  induction sched with
  | nil => intro s h; exact h
  | cons a rest ih =>
    intro s h
    exact ih _ (mlStep_inv outcome limit items s a h)

theorem mlSeq_finishes {α : Type} (outcome : α → Option String) (limit : Nat)
    (hl : 1 ≤ limit) :
    ∀ (q : List α) (s : MLState α), s.queue = q → s.inflight = [] →
      mlFinished ((mlSeqSched q.length).foldl (mlStep outcome limit) s) := by
  intro q
  induction q with
  | nil =>
    intro s hq hi
    exact ⟨hq, hi⟩
  | cons it rest ih =>
    intro s hq hi
    have hlt : s.inflight.length < limit := by
      rw [hi]
      simpa using hl
    have h1 : mlStep outcome limit s MLAct.take
        = { s with queue := rest, inflight := s.inflight ++ [it] } := by
      simp only [mlStep, if_pos hlt, hq]
    have h1i : (mlStep outcome limit s MLAct.take).inflight = [it] := by
      rw [h1, hi]
      rfl
    have h1q : (mlStep outcome limit s MLAct.take).queue = rest := by
      rw [h1]
    have h2q : (mlStep outcome limit (mlStep outcome limit s MLAct.take)
        (MLAct.complete 0)).queue = rest ∧
        (mlStep outcome limit (mlStep outcome limit s MLAct.take)
        (MLAct.complete 0)).inflight = [] := by
      rw [h1, hi]
      simp only [List.nil_append]
      cases ho : outcome it <;> simp [mlStep, ho, List.eraseIdx]
    have hfold : (mlSeqSched (it :: rest).length).foldl (mlStep outcome limit) s
        = (mlSeqSched rest.length).foldl (mlStep outcome limit)
            (mlStep outcome limit (mlStep outcome limit s MLAct.take)
              (MLAct.complete 0)) := by
      rfl
    rw [hfold]
    exact ih _ h2q.1 h2q.2

/-- C8: for every item list, worker outcome function, pool size, and
scheduler interleaving that drains the pool, `mapLimit` processes each
item exactly once (`done` is a permutation of the input), its counters
satisfy `success + failed = items.length`, and there is exactly one
error record per failed item, carrying the item and its error message —
and with at least one runner such a draining schedule always exists
(one runner processing the queue sequentially), so a failing item never
prevents the remaining queue entries from being processed. -/
theorem mapLimit_accounting {α : Type} (outcome : α → Option String)
    (limit : Nat) (items : List α) :
    (∀ sched : List MLAct, mlFinished (mlRun outcome limit items sched) →
      (mlRun outcome limit items sched).success
          + (mlRun outcome limit items sched).failed = items.length ∧
      (mlRun outcome limit items sched).errors.length
          = (mlRun outcome limit items sched).failed ∧
      (∀ pr ∈ (mlRun outcome limit items sched).errors, outcome pr.1 = some pr.2) ∧
      List.Perm (mlRun outcome limit items sched).done items) ∧
    (1 ≤ limit → mlFinished (mlRun outcome limit items (mlSeqSched items.length))) := by
  constructor
  · intro sched hfin
    have hinit : mlInv outcome items (mlInit items) := by
      refine ⟨rfl, rfl, by simp [mlInit], ?_⟩
      simp [mlInit]
    have hinv := mlFoldl_inv outcome limit items sched (mlInit items) hinit
    rw [← mlRun] at hinv
    obtain ⟨h1, h2, h3, h4⟩ := hinv
    obtain ⟨hq, hi⟩ := hfin
    rw [hq, hi] at h4
    simp only [List.append_nil] at h4
    exact ⟨by rw [h1]; exact h4.length_eq, h2, h3, h4⟩
  · intro hl
    exact mlSeq_finishes outcome limit hl items (mlInit items) rfl rfl

/-- Witness for `mapLimit_accounting`: one item, one runner, sequential
schedule. -/
theorem mapLimit_accounting_witness :
    (mlRun (fun _ : Nat => (none : Option String)) 1 [0] (mlSeqSched 1)).success
        + (mlRun (fun _ : Nat => (none : Option String)) 1 [0] (mlSeqSched 1)).failed
        = ([0] : List Nat).length ∧
    (mlRun (fun _ : Nat => (none : Option String)) 1 [0] (mlSeqSched 1)).errors.length
        = (mlRun (fun _ : Nat => (none : Option String)) 1 [0] (mlSeqSched 1)).failed ∧
    (∀ pr ∈ (mlRun (fun _ : Nat => (none : Option String)) 1 [0] (mlSeqSched 1)).errors,
      (fun _ : Nat => (none : Option String)) pr.1 = some pr.2) ∧
    List.Perm (mlRun (fun _ : Nat => (none : Option String)) 1 [0] (mlSeqSched 1)).done [0] :=
  (mapLimit_accounting (fun _ : Nat => (none : Option String)) 1 [0]).1
    (mlSeqSched 1) ⟨rfl, rfl⟩

/-- A clean path segment: nonempty, containing no `'/'`, and not `"."`
or `".."` — the segments out of which ordinary directory-style routes
are built. -/
def cleanSeg (seg : List Char) : Prop :=
  seg ≠ [] ∧ '/' ∉ seg ∧ seg ≠ ['.'] ∧ seg ≠ ['.', '.']

instance cleanSegDecidable : DecidablePred cleanSeg := by
  intro seg
  unfold cleanSeg
  infer_instance

/-- The directory-style URL path with the given segments: `"/"` for
`[]`, `"/a/b/"` for `[a, b]` — exactly the non-file-like normalized
paths. -/
def dirPathL (segs : List (List Char)) : List Char :=
  '/' :: segs.flatMap (fun seg => seg ++ ['/'])

/-- `dirPathL` as a `String`. -/
def dirPath (segs : List (List Char)) : String := ⟨dirPathL segs⟩

theorem splitSlash_append_seg :
    ∀ (a t : List Char), '/' ∉ a → splitSlash (a ++ '/' :: t) = a :: splitSlash t := by
  intro a
  induction a with
  | nil =>
    intro t _
    simp [splitSlash]
  | cons c a' ih =>
    intro t hmem
    have hc : ¬ (c == '/') = true := by
      simp only [beq_iff_eq]
      intro h
      exact hmem (by simp [h])
    simp only [List.cons_append, splitSlash, List.append_eq]
    rw [ih t (fun h => hmem (List.mem_cons_of_mem _ h))]
    rw [if_neg hc]

theorem rawSegs_flat :
    ∀ ss : List (List Char), (∀ seg ∈ ss, seg ≠ [] ∧ '/' ∉ seg) →
      rawSegs (ss.flatMap (fun seg => seg ++ ['/'])) = ss := by
  intro ss
  induction ss with
  | nil => intro _; rfl
  | cons s rest ih =>
    intro h
    have hs := h s (by simp)
    have hflat : (s :: rest).flatMap (fun seg => seg ++ ['/'])
        = s ++ '/' :: rest.flatMap (fun seg => seg ++ ['/']) := by
      simp [List.flatMap_cons]
    rw [hflat, rawSegs, splitSlash_append_seg s _ hs.2]
    have hne : (!s.isEmpty) = true := by
      cases s with
      | nil => exact absurd rfl hs.1
      | cons c cs => rfl
    rw [List.filter_cons, if_pos hne]
    have : (splitSlash (rest.flatMap (fun seg => seg ++ ['/']))).filter
        (fun seg => !seg.isEmpty) = rest := ih (fun seg hseg => h seg (by simp [hseg]))
    rw [this]

theorem normSegs_clean_aux :
    ∀ (l : List (List Char)) (acc : List (List Char)),
      (∀ seg ∈ l, seg ≠ ['.'] ∧ seg ≠ ['.', '.']) →
      l.foldl normSegsStep acc = acc ++ l := by
  intro l
  induction l with
  | nil => intro acc _; simp
  | cons s rest ih =>
    intro acc h
    have hs := h s (by simp)
    have hstep : normSegsStep acc s = acc ++ [s] := by
      rw [normSegsStep, if_neg hs.1, if_neg hs.2]
    simp only [List.foldl_cons, hstep]
    rw [ih (acc ++ [s]) (fun seg hseg => h seg (by simp [hseg]))]
    simp

theorem isFileRe_append_slash (l : List Char) : isFileRe (l ++ ['/']) = false := by
  have hrev : (l ++ ['/']).reverse = '/' :: l.reverse := by simp
  have hal : isAlnumChar '/' = false := rfl
  simp [isFileRe, hrev, List.takeWhile_cons, hal]

theorem flatMap_slash_ends :
    ∀ ss : List (List Char), ss ≠ [] →
      ∃ pre, ss.flatMap (fun seg => seg ++ ['/']) = pre ++ ['/'] := by
  intro ss
  induction ss with
  | nil => intro h; exact absurd rfl h
  | cons s rest ih =>
    intro _
    by_cases hr : rest = []
    · subst hr
      exact ⟨s, by simp⟩
    · obtain ⟨pre, hpre⟩ := ih hr
      refine ⟨s ++ ['/'] ++ pre, ?_⟩
      rw [List.flatMap_cons, hpre]
      simp

theorem dirPathL_ends (ss : List (List Char)) : ∃ pre, dirPathL ss = pre ++ ['/'] := by
  by_cases h : ss = []
  · subst h
    exact ⟨[], rfl⟩
  · obtain ⟨pre, hpre⟩ := flatMap_slash_ends ss h
    exact ⟨'/' :: pre, by rw [dirPathL, hpre]; rfl⟩

theorem outputFileSegs_dirPath (ss : List (List Char)) (h : ∀ seg ∈ ss, cleanSeg seg) :
    outputFileSegs (dirPathL ss) = ss ++ ["index.html".data] := by
  have hfile : isFileRe (dirPathL ss) = false := by
    obtain ⟨pre, hpre⟩ := dirPathL_ends ss
    rw [hpre]
    exact isFileRe_append_slash pre
  by_cases hnil : ss = []
  · subst hnil
    decide
  · have hslash : dirPathL ss ≠ ['/'] := by
      intro heq
      rw [dirPathL] at heq
      injection heq with _ h2
      cases hss : ss with
      | nil => exact hnil hss
      | cons s rest =>
        rw [hss, List.flatMap_cons] at h2
        simp [List.append_eq_nil] at h2
    simp only [outputFileSegs]
    rw [if_neg (by simp [hfile]), if_neg hslash]
    have hstrip : stripOneLeadingSlash (dirPathL ss)
        = ss.flatMap (fun seg => seg ++ ['/']) := rfl
    rw [hstrip, rawSegs_flat ss (fun seg hseg => ⟨(h seg hseg).1, (h seg hseg).2.1⟩)]
    rw [normSegs, normSegs_clean_aux (ss ++ ["index.html".data]) [] ?_]
    · simp
    · intro seg hseg
      rcases List.mem_append.mp hseg with hseg | hseg
      · exact ⟨(h seg hseg).2.2.1, (h seg hseg).2.2.2⟩
      · simp only [List.mem_singleton] at hseg
        subst hseg
        constructor <;> decide

/-- C1 amended: the output-file mapping of `writeHtmlForPath` is
injective over sets of normalized directory-style paths built from
clean segments (nonempty, no `'/'`, no `"."`/`".."` — equivalently,
every path ends in `'/'` with no empty segments); it is not injective
over arbitrary normalized sets, because a file-like normalized path such
as `"/index.html"` collides with the directory path `"/"` (see the
counterexample). -/
theorem outputFile_injective_on_clean_dirs (ss₁ ss₂ : List (List Char))
    (h₁ : ∀ seg ∈ ss₁, cleanSeg seg) (h₂ : ∀ seg ∈ ss₂, cleanSeg seg)
    (h : outputFile (dirPath ss₁) = outputFile (dirPath ss₂)) :
    dirPath ss₁ = dirPath ss₂ := by
  have e1 : outputFile (dirPath ss₁) = ss₁ ++ ["index.html".data] :=
    outputFileSegs_dirPath ss₁ h₁
  have e2 : outputFile (dirPath ss₂) = ss₂ ++ ["index.html".data] :=
    outputFileSegs_dirPath ss₂ h₂
  rw [e1, e2] at h
  have hss : ss₁ = ss₂ := List.append_cancel_right h
  rw [hss]

/-- Witness for `outputFile_injective_on_clean_dirs` at the one-segment
path `"/a/"`. -/
theorem outputFile_injective_on_clean_dirs_witness :
    dirPath [['a']] = dirPath [['a']] :=
  outputFile_injective_on_clean_dirs [['a']] [['a']] (by decide) (by decide) rfl

end StaticExport
